import Mathlib

/-!
Verification of the F1 TSP logistics repository.

The repository builds approximate Traveling Salesman tours over Formula 1
circuits with two construction heuristics (nearest neighbour and cheapest
insertion) and two transport cost models (a three-mode «eco» model and a
two-mode «economic» model).  This file gives a shallow embedding of the
relevant Python functions and proves / refutes the specification claims
about them.

Conventions of the embedding:
* circuit labels are `String` when metadata lookups matter and `Nat`
  when only the distance matrix matters (the heuristics);
* distances and costs live in an arbitrary linear ordered commutative
  ring `α`; the repository's Python floats carry exact values in every
  scenario treated here, so the claims are stated over `ℚ` (symbolic
  facts) and evaluated over `ℤ` (concrete runs);
* a Python `dict` lookup that may raise `KeyError` is an `Option`;
* a Python `set` is represented by the list of its elements in the
  iteration order the runtime happens to use; functions that iterate
  over a set take this enumeration order as an explicit list argument.
-/

namespace TSPF1

variable {α : Type} [LinearOrderedCommRing α]

/-- First-minimiser of `f` on a list: the element the Python pattern
`best = None; for x in l: if f(x) < best: ...` (or `min(l, key=f)`, or
`pandas.Series.idxmin`) returns, i.e. the first element attaining the
minimum of `f`.  `none` exactly when the list is empty. -/
def argminFirst {β : Type} (f : β → α) : List β → Option β
  | [] => none
  | x :: xs =>
    match argminFirst f xs with
    | none => some x
    | some y => if f x ≤ f y then some x else some y

/-- Minimum value of a nonempty list, as produced by Python `min(values)`;
`none` on the empty list. -/
def listMin : List α → Option α
  | [] => none
  | x :: xs =>
    match listMin xs with
    | none => some x
    | some y => some (min x y)

/-! ## Eco transport model (`Eco_transport_model.py`) -/

/-- Per-circuit metadata entry from `CIRCUIT_METADATA`
(`Eco_transport_data.py`): the continent and whether the circuit is
coastal. -/
structure CircuitMeta where
  continent : String
  coastal : Bool
deriving DecidableEq, Repr

/-- The three transport modes of the eco model. -/
inductive Mode where
  | truck
  | ship
  | plane
deriving DecidableEq, Repr

/-- Position of a mode in the canonical order truck, ship, plane — the order
in which `allowed_modes` appends modes to its result list. -/
def modeIdx : Mode → Nat
  | Mode.truck => 0
  | Mode.ship => 1
  | Mode.plane => 2

/-- `TransportModel` (`Eco_transport_model.py`): circuit metadata, the
maximum distance a truck may cover, and the per-mode weighting factors
(`FACTORS`).  The metadata dict is a partial map from circuit name to its
entry. -/
structure TransportModel (α : Type) where
  meta : String → Option CircuitMeta
  max_truck_distance : α
  FACTORS : Mode → α

/-- Default factors truck=1.0, ship=0.6, plane=3.0. -/
def defaultFactors : Mode → ℚ
  | Mode.truck => 1
  | Mode.ship => 3 / 5
  | Mode.plane => 3

/-- `TransportModel.allowed_modes`: truck for same continent within range,
ship between different continents when both circuits are coastal, plane
always.  A metadata lookup miss (Python `KeyError`) is `none`. -/
def TransportModel.allowed_modes (tm : TransportModel α) (a b : String)
    (distance : α) : Option (List Mode) := do
  let A ← tm.meta a
  let B ← tm.meta b
  let truckPart :=
    if A.continent = B.continent ∧ distance ≤ tm.max_truck_distance then
      [Mode.truck]
    else []
  let shipPart :=
    if A.continent ≠ B.continent ∧ A.coastal = true ∧ B.coastal = true then
      [Mode.ship]
    else []
  pure (truckPart ++ shipPart ++ [Mode.plane])

/-- `TransportModel.transport_cost`: the minimum of
`distance * FACTORS[m]` over the allowed modes. -/
def TransportModel.transport_cost (tm : TransportModel α) (a b : String)
    (distance : α) : Option α := do
  let modes ← tm.allowed_modes a b distance
  listMin (modes.map (fun m => distance * tm.FACTORS m))

/-- `TransportModel.transport_cost_with_mode`: the best mode
(`min(modes, key=...)`, i.e. the first minimiser) together with its cost. -/
def TransportModel.transport_cost_with_mode (tm : TransportModel α)
    (a b : String) (distance : α) : Option (α × Mode) := do
  let modes ← tm.allowed_modes a b distance
  match argminFirst (fun m => distance * tm.FACTORS m) modes with
  | none => none
  | some best_mode => pure (distance * tm.FACTORS best_mode, best_mode)

/-! ## Economic model mode selection
(`time_cost_multimodel_NN.py` / `time_cost_multimodel_IH.py`, `get_metrics`) -/

/-- The two transport modes of the economic model. -/
inductive EMode where
  | TRUCK
  | PLANE
deriving DecidableEq, Repr

/-- `get_metrics` of the economic model.  The Python function first computes
`t_cost`, `t_score`, `p_cost`, `p_score` from the distance and the global
configuration (the plane formulas use the transcendental `math.log`, so the
four values are taken here as inputs; the claims about `get_metrics`
quantify over all score values) and then selects the mode: a hard
continent guard forcing PLANE across regions, otherwise the mode with the
lower score, ties going to TRUCK via `<=`. -/
def get_metrics (t_cost t_score p_cost p_score : α) (reg1 reg2 : String) :
    α × α × EMode :=
  if reg1 ≠ reg2 then (p_cost, p_score, EMode.PLANE)
  else if t_score ≤ p_score then (t_cost, t_score, EMode.TRUCK)
  else (p_cost, p_score, EMode.PLANE)

/-! ## Path length helper

`path_length` in `insertion_heuristic_initial_situation.py` and the total
accumulation loops in the other scripts: sum of the costs of consecutive
legs. -/

/-- Sum of `D a b` over consecutive pairs of the path. -/
def path_length (D : Nat → Nat → α) : List Nat → α
  | a :: b :: rest => D a b + path_length D (b :: rest)
  | _ => 0

/-! ## Nearest-neighbour heuristic

`nn_tsp` exists in two relevant source variants:
* `nearest_neighbour_initial_situation.py` sorts the unvisited set before
  taking `idxmin` (deterministic lexicographic-first tie-break);
* `Eco_NN_main.py` takes `idxmin` over `list(unvisited)` directly, so the
  tie-break depends on the set's iteration order.

Both keep `unvisited` in a Python `set`; the embedding carries the set as
the list of its elements in iteration order. -/

/-- Loop body of `nn_tsp` from `nearest_neighbour_initial_situation.py`:
repeatedly move to the nearest unvisited node, scanning the candidates in
sorted order.  Returns (visit order after the start node, accumulated
total, final current node).  The fuel argument is instantiated with the
number of unvisited nodes, which is exactly how many iterations the
`while unvisited` loop performs. -/
def nnLoop (D : Nat → Nat → α) : Nat → Nat → List Nat → List Nat × α × Nat
  | 0, cur, _ => ([], 0, cur)
  | fuel + 1, cur, unv =>
    match argminFirst (fun x => D cur x) (List.insertionSort (· ≤ ·) unv) with
    | none => ([], 0, cur)
    | some nxt =>
      let r := nnLoop D fuel nxt (unv.erase nxt)
      (nxt :: r.1, D cur nxt + r.2.1, r.2.2)

/-- `nn_tsp` from `nearest_neighbour_initial_situation.py`.  `start` is
`nodes[0]` and `unvisited` is `set(nodes[1:])` in iteration order. -/
def nn_tsp (D : Nat → Nat → α) (start : Nat) (unvisited : List Nat)
    (roundtrip : Bool) : List Nat × α :=
  let r := nnLoop D unvisited.length start unvisited
  if roundtrip then (start :: r.1 ++ [start], r.2.1 + D r.2.2 start)
  else (start :: r.1, r.2.1)

/-- Loop body of `nn_tsp` from `Eco_NN_main.py`: identical to `nnLoop`
except that the candidates are scanned in the set's raw iteration order
(`list(unvisited)`), without sorting. -/
def nnEcoLoop (D : Nat → Nat → α) : Nat → Nat → List Nat → List Nat × α × Nat
  | 0, cur, _ => ([], 0, cur)
  | fuel + 1, cur, unv =>
    match argminFirst (fun x => D cur x) unv with
    | none => ([], 0, cur)
    | some nxt =>
      let r := nnEcoLoop D fuel nxt (unv.erase nxt)
      (nxt :: r.1, D cur nxt + r.2.1, r.2.2)

/-- `nn_tsp` from `Eco_NN_main.py`. -/
def nn_tsp_eco (D : Nat → Nat → α) (start : Nat) (unvisited : List Nat)
    (roundtrip : Bool) : List Nat × α :=
  let r := nnEcoLoop D unvisited.length start unvisited
  if roundtrip then (start :: r.1 ++ [start], r.2.1 + D r.2.2 start)
  else (start :: r.1, r.2.1)

/-! ## Cheapest insertion heuristic
(`insertion_heuristic_initial_situation.py`, `cheapest_insertion_tsp`) -/

/-- Initialisation of `cheapest_insertion_tsp`: `start = nodes[0]`,
`others = [n for n in nodes if n != start]`, `second` the first minimiser
of `D.loc[start, others]` (`idxmin`).  `none` when `nodes` is empty or
`others` is empty (Python raises in both situations). -/
def ciInit (D : Nat → Nat → α) (nodes : List Nat) : Option (Nat × Nat) :=
  match nodes with
  | [] => none
  | start :: _ =>
    (argminFirst (fun n => D start n)
        (nodes.filter (fun n => n ≠ start))).map (fun second => (start, second))

/-- The initial 2-cycle `[start, second, start]` of `cheapest_insertion_tsp`. -/
def ciStartTour (D : Nat → Nat → α) (nodes : List Nat) : Option (List Nat) :=
  (ciInit D nodes).map (fun p => [p.1, p.2, p.1])

/-- Insertion delta of putting node `p.1` between tour positions `p.2` and
`p.2 + 1`: `D[a,x] + D[x,b] - D[a,b]`. -/
def ciDelta (D : Nat → Nat → α) (tour : List Nat) (p : Nat × Nat) : α :=
  D (tour.getD p.2 0) p.1 + D p.1 (tour.getD (p.2 + 1) 0) -
    D (tour.getD p.2 0) (tour.getD (p.2 + 1) 0)

/-- All candidate (node, edge index) pairs scanned by the inner double loop
`for x in unvisited: for i in range(len(tour) - 1)`, in scan order. -/
def ciPairs (tour unv : List Nat) : List (Nat × Nat) :=
  unv.flatMap (fun x => (List.range (tour.length - 1)).map (fun i => (x, i)))

/-- Main loop of `cheapest_insertion_tsp`: while unvisited nodes remain,
insert the (node, position) pair of globally minimal delta (first minimiser
in scan order, Python tracks the best with a strict `<`).  `unv` is the
`unvisited` set in iteration order; fuel is its size. -/
def ciLoop (D : Nat → Nat → α) : Nat → List Nat → List Nat → List Nat
  | 0, tour, _ => tour
  | fuel + 1, tour, unv =>
    match argminFirst (ciDelta D tour) (ciPairs tour unv) with
    | none => tour
    | some (x, i) => ciLoop D fuel (tour.insertIdx (i + 1) x) (unv.erase x)

/-- First index attaining the minimum of `f` over `0, ..., n - 1`: the
`best_break_i` loop of `cheapest_insertion_tsp` (strict `<` update). -/
def bestBreak (f : Nat → α) (n : Nat) : Nat :=
  (argminFirst f (List.range n)).getD 0

/-- Opening step of `cheapest_insertion_tsp` for `roundtrip=False`: find the
cheapest edge of the closed tour, drop the repeated start, and rotate so the
path starts right after the removed edge. -/
def openCheapest (D : Nat → Nat → α) (tour : List Nat) : List Nat :=
  let i := bestBreak (fun j => D (tour.getD j 0) (tour.getD (j + 1) 0))
    (tour.length - 1)
  let cycle_nodes := tour.dropLast
  cycle_nodes.drop (i + 1) ++ cycle_nodes.take (i + 1)

/-- `cheapest_insertion_tsp` from
`insertion_heuristic_initial_situation.py`.  `ord` is `set(nodes)` in
iteration order; the function removes `start` and `second` from it exactly
as the Python code does. -/
def cheapest_insertion (D : Nat → Nat → α) (nodes ord : List Nat)
    (roundtrip : Bool) : Option (List Nat × α) :=
  if nodes.length < 2 then none
  else
    match ciInit D nodes with
    | none => none
    | some (start, second) =>
      let unv := (ord.erase start).erase second
      let tour := ciLoop D unv.length [start, second, start] unv
      if roundtrip then some (tour, path_length D tour)
      else
        let op := openCheapest D tour
        some (op, path_length D op)

/-! ## Successive insertion variant (`Eco_SI_main.py`, `si_tsp`) -/

/-- Initial subtour of `si_tsp`: `[nodes[0], nodes[1], nodes[0]]`,
unconditionally (no nearest-neighbour seeding).  `none` when fewer than two
nodes are supplied (Python raises `IndexError`). -/
def siStartTour : List Nat → Option (List Nat)
  | n0 :: n1 :: _ => some [n0, n1, n0]
  | _ => none

/-- One insertion step of `si_tsp`: insert `k` after the first position of
minimal delta. -/
def siInsert (D : Nat → Nat → α) (tour : List Nat) (k : Nat) : List Nat :=
  let i := (argminFirst (fun i => ciDelta D tour (k, i))
    (List.range (tour.length - 1))).getD 0
  tour.insertIdx (i + 1) k

/-- `si_tsp` from `Eco_SI_main.py`: build a closed cycle by successive
insertion of `nodes[2:]` in list order; for an open path just pop the final
return to the start. -/
def si_tsp (D : Nat → Nat → α) (nodes : List Nat) (roundtrip : Bool) :
    Option (List Nat × α) := do
  let t0 ← siStartTour nodes
  let closed := (nodes.drop 2).foldl (siInsert D) t0
  let tour := if roundtrip then closed else closed.dropLast
  pure (tour, path_length D tour)

/-! ## Concrete instances used by example scenarios and counterexamples -/

/-- Distance matrix given as a row list; entries outside the matrix read 0. -/
def matD (rows : List (List ℤ)) (i j : Nat) : ℤ := (rows.getD i []).getD j 0

/-- The 4-node symmetric matrix of example scenario 1. -/
def exD4 : Nat → Nat → ℤ :=
  matD [[0, 10, 15, 20], [10, 0, 35, 25], [15, 35, 0, 30], [20, 25, 30, 0]]

/-- 3-node symmetric matrix with `D 0 2 < D 0 1`, where `si_tsp` neither
seeds with the nearest neighbour nor opens the cycle at its cheapest edge. -/
def cexD : Nat → Nat → ℤ := matD [[0, 4, 1], [4, 0, 5], [1, 5, 0]]

/-- 3-node symmetric matrix with a distance tie `D 0 1 = D 0 2`, exposing
the dependence of the eco nearest-neighbour on set iteration order. -/
def tieD : Nat → Nat → ℤ := matD [[0, 5, 5], [5, 0, 1], [5, 1, 0]]

/-- A two-circuit metadata table: `A` and `B` on the same continent, both
coastal; integer factors truck=1, ship=1, plane=3. -/
def cexTM : TransportModel ℤ where
  meta := fun s =>
    if s = "A" ∨ s = "B" then some ⟨"EU", true⟩ else none
  max_truck_distance := 1500
  FACTORS := fun m => match m with
    | Mode.truck => 1
    | Mode.ship => 1
    | Mode.plane => 3

/-- The metadata table of `cexTM` with the default rational factors. -/
def cexTMQ : TransportModel ℚ where
  meta := cexTM.meta
  max_truck_distance := 1500
  FACTORS := defaultFactors

/-! ## Properties of the generic helpers -/

theorem argminFirst_eq_none {β : Type} (f : β → α) (l : List β) :
    argminFirst f l = none ↔ l = [] := by
  cases l with
  | nil => simp [argminFirst]
  | cons x xs =>
    simp only [argminFirst]
    constructor
    · intro h
      cases hxs : argminFirst f xs with
      | none => simp [hxs] at h
      | some y =>
        rw [hxs] at h
        by_cases hle : f x ≤ f y <;> simp [hle] at h
    · intro h; exact absurd h (List.cons_ne_nil x xs)

/-- Full characterisation of `argminFirst`: the result splits the list into a
prefix of strictly larger values and a suffix of values at least as large. -/
theorem argminFirst_spec {β : Type} (f : β → α) :
    ∀ (l : List β) (y : β), argminFirst f l = some y →
      ∃ pre suf, l = pre ++ y :: suf ∧ (∀ x ∈ pre, f y < f x) ∧
        (∀ x ∈ suf, f y ≤ f x) := by
  intro l
  induction l with
  | nil => intro y h; simp [argminFirst] at h
  | cons x xs ih =>
    intro y h
    simp only [argminFirst] at h
    cases hxs : argminFirst f xs with
    | none =>
      rw [hxs] at h
      have hnil : xs = [] := (argminFirst_eq_none f xs).mp hxs
      refine ⟨[], [], ?_, by simp, by simp⟩
      simp only [Option.some.injEq] at h
      simp [hnil, h]
    | some z =>
      rw [hxs] at h
      obtain ⟨pre, suf, hdec, hpre, hsuf⟩ := ih z hxs
      by_cases hle : f x ≤ f z
      · simp only [hle, if_pos] at h
        simp only [Option.some.injEq] at h
        subst h
        refine ⟨[], xs, rfl, by simp, ?_⟩
        intro w hw
        rw [hdec] at hw
        rcases List.mem_append.mp hw with hw | hw
        · exact le_of_lt (lt_of_le_of_lt hle (hpre w hw))
        · rcases List.mem_cons.mp hw with hw | hw
          · exact hw ▸ hle
          · exact le_trans hle (hsuf w hw)
      · simp only [hle, if_neg, not_false_iff] at h
        simp only [Option.some.injEq] at h
        subst h
        refine ⟨x :: pre, suf, by rw [hdec]; rfl, ?_, hsuf⟩
        intro w hw
        rcases List.mem_cons.mp hw with hw | hw
        · exact hw ▸ lt_of_not_le hle
        · exact hpre w hw

theorem argminFirst_mem {β : Type} {f : β → α} {l : List β} {y : β}
    (h : argminFirst f l = some y) : y ∈ l := by
  obtain ⟨pre, suf, hdec, -, -⟩ := argminFirst_spec f l y h
  rw [hdec]; exact List.mem_append.mpr (Or.inr (List.mem_cons_self y suf))

theorem argminFirst_le {β : Type} {f : β → α} {l : List β} {y : β}
    (h : argminFirst f l = some y) : ∀ x ∈ l, f y ≤ f x := by
  obtain ⟨pre, suf, hdec, hpre, hsuf⟩ := argminFirst_spec f l y h
  intro x hx
  rw [hdec] at hx
  rcases List.mem_append.mp hx with hx | hx
  · exact le_of_lt (hpre x hx)
  · rcases List.mem_cons.mp hx with hx | hx
    · exact hx ▸ le_rfl
    · exact hsuf x hx

theorem argminFirst_isSome {β : Type} (f : β → α) {l : List β}
    (h : l ≠ []) : ∃ y, argminFirst f l = some y := by
  cases hm : argminFirst f l with
  | none => exact absurd ((argminFirst_eq_none f l).mp hm) h
  | some y => exact ⟨y, rfl⟩

/-- The minimum of the mapped values is the value at the first minimiser. -/
theorem listMin_map {β : Type} (f : β → α) :
    ∀ l : List β, listMin (l.map f) = (argminFirst f l).map f := by
  intro l
  induction l with
  | nil => rfl
  | cons x xs ih =>
    simp only [List.map_cons, listMin, argminFirst]
    rw [ih]
    cases hxs : argminFirst f xs with
    | none => rfl
    | some y =>
      simp only [Option.map_some]
      by_cases hle : f x ≤ f y
      · simp [hle, min_eq_left hle]
      · simp [hle, min_eq_right (le_of_lt (lt_of_not_le hle))]

/-! ## Supporting lemmas for the eco model claims -/

/-- Closed form of `allowed_modes` once both metadata lookups succeed. -/
theorem allowed_modes_eq (tm : TransportModel α) (a b : String) (d : α)
    (A B : CircuitMeta) (ha : tm.meta a = some A) (hb : tm.meta b = some B) :
    tm.allowed_modes a b d = some
      ((if A.continent = B.continent ∧ d ≤ tm.max_truck_distance then
          [Mode.truck] else []) ++
        (if A.continent ≠ B.continent ∧ A.coastal = true ∧ B.coastal = true then
          [Mode.ship] else []) ++ [Mode.plane]) := by
  simp [TransportModel.allowed_modes, ha, hb]

/-- The allowed-modes list is strictly increasing in the canonical mode
order truck, ship, plane. -/
theorem allowed_modes_pairwise (tm : TransportModel α) (a b : String) (d : α)
    {ms : List Mode} (h : tm.allowed_modes a b d = some ms) :
    ms.Pairwise (fun m m' => modeIdx m < modeIdx m') := by
  cases hA : tm.meta a with
  | none => simp [TransportModel.allowed_modes, hA] at h
  | some A =>
    cases hB : tm.meta b with
    | none => simp [TransportModel.allowed_modes, hA, hB] at h
    | some B =>
      rw [allowed_modes_eq tm a b d A B hA hB] at h
      injection h with h
      subst h
      split_ifs <;> decide

/-- The allowed-modes list always contains plane, hence is nonempty. -/
theorem allowed_modes_ne_nil (tm : TransportModel α) (a b : String) (d : α)
    {ms : List Mode} (h : tm.allowed_modes a b d = some ms) : ms ≠ [] := by
  cases hA : tm.meta a with
  | none => simp [TransportModel.allowed_modes, hA] at h
  | some A =>
    cases hB : tm.meta b with
    | none => simp [TransportModel.allowed_modes, hA, hB] at h
    | some B =>
      rw [allowed_modes_eq tm a b d A B hA hB] at h
      injection h with h
      subst h
      simp

theorem listMin_ne_none (l : List α) (h : l ≠ []) : ∃ v, listMin l = some v := by
  cases l with
  | nil => exact absurd rfl h
  | cons x xs =>
    simp only [listMin]
    cases listMin xs with
    | none => exact ⟨x, rfl⟩
    | some y => exact ⟨min x y, rfl⟩

/-! ## Claim C1 -/

/-- C1: for circuits known to the metadata, the eco model's allowed modes
contain truck iff same continent and distance within the truck range,
ship iff different continents and both coastal, and always plane. -/
theorem C1_allowed_modes (tm : TransportModel α) (a b : String) (d : α)
    (A B : CircuitMeta) (ha : tm.meta a = some A) (hb : tm.meta b = some B) :
    ∃ ms, tm.allowed_modes a b d = some ms ∧
      (Mode.truck ∈ ms ↔
        (A.continent = B.continent ∧ d ≤ tm.max_truck_distance)) ∧
      (Mode.ship ∈ ms ↔
        (A.continent ≠ B.continent ∧ A.coastal = true ∧ B.coastal = true)) ∧
      Mode.plane ∈ ms := by
  refine ⟨_, allowed_modes_eq tm a b d A B ha hb, ?_, ?_, ?_⟩ <;>
    split_ifs <;> simp_all

/-- Witness for C1: spec example scenario 3 — two same-continent coastal
circuits 1400 km apart with `max_truck_distance = 1500`. -/
theorem C1_allowed_modes_witness :
    ∃ ms, cexTMQ.allowed_modes "A" "B" (1400 : ℚ) = some ms ∧
      (Mode.truck ∈ ms ↔ ("EU" = "EU" ∧ (1400 : ℚ) ≤ 1500)) ∧
      (Mode.ship ∈ ms ↔ ("EU" ≠ "EU" ∧ true = true ∧ true = true)) ∧
      Mode.plane ∈ ms := by
  have h := C1_allowed_modes cexTMQ "A" "B" (1400 : ℚ) ⟨"EU", true⟩
    ⟨"EU", true⟩ (by decide) (by decide)
  exact h

/-! ## Claim C2 -/

/-- C2: economic-model mode selection — across regions the mode is PLANE
regardless of the scores; within a region the lower score wins, ties
resolving to TRUCK through the `<=` comparison. -/
theorem C2_continent_guard (t_cost t_score p_cost p_score : α)
    (reg1 reg2 : String) :
    (reg1 ≠ reg2 →
      get_metrics t_cost t_score p_cost p_score reg1 reg2 =
        (p_cost, p_score, EMode.PLANE)) ∧
    (reg1 = reg2 →
      (t_score < p_score →
        (get_metrics t_cost t_score p_cost p_score reg1 reg2).2.2 =
          EMode.TRUCK) ∧
      (p_score < t_score →
        (get_metrics t_cost t_score p_cost p_score reg1 reg2).2.2 =
          EMode.PLANE) ∧
      (t_score = p_score →
        (get_metrics t_cost t_score p_cost p_score reg1 reg2).2.2 =
          EMode.TRUCK)) := by
  unfold get_metrics
  constructor
  · intro h; simp [h]
  · intro h
    refine ⟨fun hlt => ?_, fun hlt => ?_, fun heq => ?_⟩
    · simp [h, le_of_lt hlt]
    · simp [h, not_le_of_lt hlt, not_lt_of_le (le_of_lt hlt)]
    · simp [h, le_of_eq heq]

/-- Witness for C2: a cross-region pair forces PLANE even though the truck
score 2 is lower; a same-region pair with the lower truck score picks
TRUCK. -/
theorem C2_continent_guard_witness :
    get_metrics (1 : ℤ) 2 3 5 "EU" "AS" = (3, 5, EMode.PLANE) ∧
    (get_metrics (1 : ℤ) 2 3 5 "EU" "EU").2.2 = EMode.TRUCK :=
  ⟨(C2_continent_guard (1 : ℤ) 2 3 5 "EU" "AS").1 (by decide),
   ((C2_continent_guard (1 : ℤ) 2 3 5 "EU" "EU").2 rfl).1 (by decide)⟩

/-! ## Claim C3 -/

/-- C3: for known circuits, `transport_cost_with_mode` returns an eligible
mode whose cost `d * FACTORS[m]` is minimal among the eligible modes, and
on ties the returned mode is the earliest one in the canonical order
truck, ship, plane. -/
theorem C3_cost_with_mode_min (tm : TransportModel α) (a b : String) (d : α)
    (A B : CircuitMeta) (ha : tm.meta a = some A) (hb : tm.meta b = some B) :
    ∃ ms c m, tm.allowed_modes a b d = some ms ∧
      tm.transport_cost_with_mode a b d = some (c, m) ∧
      m ∈ ms ∧ c = d * tm.FACTORS m ∧
      (∀ m' ∈ ms, c ≤ d * tm.FACTORS m') ∧
      (∀ m' ∈ ms, d * tm.FACTORS m' = c → modeIdx m ≤ modeIdx m') := by
  obtain ⟨ms, hms⟩ : ∃ ms, tm.allowed_modes a b d = some ms :=
    ⟨_, allowed_modes_eq tm a b d A B ha hb⟩
  obtain ⟨m, hm⟩ :=
    argminFirst_isSome (fun m => d * tm.FACTORS m)
      (allowed_modes_ne_nil tm a b d hms)
  have hpw := allowed_modes_pairwise tm a b d hms
  obtain ⟨pre, suf, hdec, hpre, hsuf⟩ :=
    argminFirst_spec (fun m => d * tm.FACTORS m) ms m hm
  refine ⟨ms, d * tm.FACTORS m, m, hms, ?_, argminFirst_mem hm, rfl,
    argminFirst_le hm, ?_⟩
  · unfold TransportModel.transport_cost_with_mode
    rw [hms]
    simp only [Option.bind_eq_bind, Option.some_bind]
    rw [hm]
    rfl
  · intro m' hm' heq
    rw [hdec] at hm' hpw
    rcases List.mem_append.mp hm' with hin | hin
    · exact absurd heq (ne_of_gt (hpre m' hin))
    · rcases List.mem_cons.mp hin with hin | hin
      · exact le_of_eq (congrArg modeIdx hin.symm)
      · have h1 := (List.pairwise_append.mp hpw).2.1
        exact le_of_lt ((List.pairwise_cons.mp h1).1 m' hin)

/-- Witness for C3: concrete model with both circuits known; the theorem
is applied at distance 1400. -/
theorem C3_cost_with_mode_min_witness :
    ∃ ms c m, cexTMQ.allowed_modes "A" "B" (1400 : ℚ) = some ms ∧
      cexTMQ.transport_cost_with_mode "A" "B" (1400 : ℚ) = some (c, m) ∧
      m ∈ ms ∧ c = 1400 * cexTMQ.FACTORS m ∧
      (∀ m' ∈ ms, c ≤ 1400 * cexTMQ.FACTORS m') ∧
      (∀ m' ∈ ms, 1400 * cexTMQ.FACTORS m' = c → modeIdx m ≤ modeIdx m') :=
  C3_cost_with_mode_min cexTMQ "A" "B" (1400 : ℚ) ⟨"EU", true⟩ ⟨"EU", true⟩
    (by decide) (by decide)

/-! ## Claim C10 -/

/-- C10: the two eco cost entry points agree — `transport_cost` equals the
cost component of `transport_cost_with_mode`, for all circuit pairs and
distances (including unknown circuits, where both fail). -/
theorem C10_cost_entry_points_agree (tm : TransportModel α) (a b : String)
    (d : α) :
    tm.transport_cost a b d =
      (tm.transport_cost_with_mode a b d).map Prod.fst := by
  unfold TransportModel.transport_cost TransportModel.transport_cost_with_mode
  cases h : tm.allowed_modes a b d with
  | none => simp [h]
  | some ms =>
    simp only [h, Option.bind_eq_bind, Option.some_bind]
    rw [listMin_map]
    cases hg : argminFirst (fun m => d * tm.FACTORS m) ms with
    | none => rfl
    | some m => rfl

/-! ## Claim C9 -/

/-- C9 counterexample: a negative distance is not rejected — the eco model
happily computes a transport cost for distance −100 between two known
circuits, instead of signalling a failure. -/
theorem C9_counterexample :
    (-100 : ℤ) < 0 ∧ cexTM.transport_cost "A" "B" (-100) = some (-300) := by
  decide

/-- C9 (amended): an unknown location identity is a distinguishable,
fatal failure of the eco cost model, but a negative distance is not
validated — for known circuits a cost value is always produced, whatever
the sign of the distance. -/
theorem C9_unknown_location_fails (tm : TransportModel α) (a b : String)
    (d : α) :
    (tm.meta a = none → tm.transport_cost a b d = none) ∧
    (tm.meta b = none → tm.transport_cost a b d = none) ∧
    (∀ A B, tm.meta a = some A → tm.meta b = some B →
      (tm.transport_cost a b d).isSome = true) := by
  unfold TransportModel.transport_cost
  refine ⟨fun h => ?_, fun h => ?_, fun A B hA hB => ?_⟩
  · simp [TransportModel.allowed_modes, h]
  · cases hA : tm.meta a with
    | none => simp [TransportModel.allowed_modes, hA]
    | some A => simp [TransportModel.allowed_modes, hA, h]
  · rw [show tm.allowed_modes a b d = some _ from
      allowed_modes_eq tm a b d A B hA hB]
    simp only [Option.bind_eq_bind, Option.some_bind]
    obtain ⟨v, hv⟩ := listMin_ne_none
      (((if A.continent = B.continent ∧ d ≤ tm.max_truck_distance then
          [Mode.truck] else []) ++
        (if A.continent ≠ B.continent ∧ A.coastal = true ∧ B.coastal = true
          then [Mode.ship] else []) ++ [Mode.plane]).map
        (fun m => d * tm.FACTORS m)) (by simp)
    rw [hv]
    rfl

/-- Witness for C9 (amended): an unknown circuit `Z` makes the lookup fail;
the known pair produces a value even at the negative distance −5. -/
theorem C9_unknown_location_fails_witness :
    cexTM.transport_cost "Z" "B" 10 = none ∧
    (cexTM.transport_cost "A" "B" (-5)).isSome = true :=
  ⟨(C9_unknown_location_fails cexTM "Z" "B" 10).1 (by decide),
   (C9_unknown_location_fails cexTM "A" "B" (-5)).2.2 ⟨"EU", true⟩
     ⟨"EU", true⟩ (by decide) (by decide)⟩

/-! ## Supporting lemmas for the tour-construction claims -/

theorem getLast?_cons_of_ne_nil {β : Type} (a : β) {l : List β}
    (h : l ≠ []) : (a :: l).getLast? = l.getLast? := by
  cases l with
  | nil => exact absurd rfl h
  | cons b t => rfl

theorem insertIdx_perm {β : Type} (x : β) :
    ∀ (n : Nat) (l : List β), n ≤ l.length → (l.insertIdx n x).Perm (x :: l) := by
  intro n
  induction n with
  | zero => intro l _; simp [List.insertIdx_zero]
  | succ m ih =>
    intro l hl
    cases l with
    | nil => simp at hl
    | cons a t =>
      rw [List.insertIdx_succ_cons]
      exact ((ih t (Nat.le_of_succ_le_succ hl)).cons a).trans (List.Perm.swap x a t)

theorem insertIdx_head? {β : Type} (x : β) (n : Nat) (l : List β)
    (hn : 0 < n) : (l.insertIdx n x).head? = l.head? := by
  cases n with
  | zero => exact absurd hn (lt_irrefl 0)
  | succ m =>
    cases l with
    | nil => rfl
    | cons a t => rw [List.insertIdx_succ_cons]; rfl

theorem insertIdx_getLast? {β : Type} (x : β) :
    ∀ (n : Nat) (l : List β), n < l.length →
      (l.insertIdx n x).getLast? = l.getLast? := by
  intro n
  induction n with
  | zero =>
    intro l hl
    cases l with
    | nil => simp at hl
    | cons a t => rw [List.insertIdx_zero]; exact getLast?_cons_of_ne_nil x (by simp)
  | succ m ih =>
    intro l hl
    cases l with
    | nil => simp at hl
    | cons a t =>
      rw [List.insertIdx_succ_cons]
      have hm : m < t.length := Nat.lt_of_succ_lt_succ hl
      have ht : t ≠ [] := by
        intro h; rw [h] at hm; simp at hm
      have hne : t.insertIdx m x ≠ [] := by
        intro h
        have := congrArg List.length h
        rw [List.length_insertIdx m t (le_of_lt hm)] at this
        simp at this
      rw [getLast?_cons_of_ne_nil a hne, getLast?_cons_of_ne_nil a ht]
      exact ih t hm

/-! ### Nearest-neighbour lemmas -/

/-- The visit order produced by the nearest-neighbour loop is a permutation
of the unvisited set. -/
theorem nnLoop_perm (D : Nat → Nat → α) :
    ∀ (fuel : Nat) (cur : Nat) (unv : List Nat), unv.length = fuel →
      (nnLoop D fuel cur unv).1.Perm unv := by
  intro fuel
  induction fuel with
  | zero =>
    intro cur unv hl
    rw [List.length_eq_zero] at hl
    subst hl
    simp [nnLoop]
  | succ n ih =>
    intro cur unv hl
    have hu : unv ≠ [] := by
      intro h; rw [h] at hl; simp at hl
    have hs : List.insertionSort (· ≤ ·) unv ≠ [] := by
      intro h
      have hperm := List.perm_insertionSort (· ≤ ·) unv
      rw [h] at hperm
      exact hu hperm.symm.eq_nil
    obtain ⟨nxt, hnxt⟩ := argminFirst_isSome (fun x => D cur x) hs
    have hmem : nxt ∈ unv :=
      (List.perm_insertionSort (· ≤ ·) unv).mem_iff.mp (argminFirst_mem hnxt)
    have hlen : (unv.erase nxt).length = n := by
      rw [List.length_erase_of_mem hmem, hl]
      rfl
    simp only [nnLoop, hnxt]
    exact ((ih nxt (unv.erase nxt) hlen).cons nxt).trans
      (List.perm_cons_erase hmem).symm

/-- The sorted-candidate nearest-neighbour loop does not depend on the
iteration order of the unvisited set. -/
theorem nnLoop_order_irrel (D : Nat → Nat → α) :
    ∀ (fuel : Nat) (cur : Nat) (u1 u2 : List Nat), u1.Perm u2 →
      nnLoop D fuel cur u1 = nnLoop D fuel cur u2 := by
  intro fuel
  induction fuel with
  | zero => intro cur u1 u2 _; rfl
  | succ n ih =>
    intro cur u1 u2 hp
    have hsort : List.insertionSort (· ≤ ·) u1 = List.insertionSort (· ≤ ·) u2 :=
      List.eq_of_perm_of_sorted
        ((List.perm_insertionSort _ u1).trans
          (hp.trans (List.perm_insertionSort _ u2).symm))
        (List.sorted_insertionSort _ u1) (List.sorted_insertionSort _ u2)
    cases hnxt : argminFirst (fun x => D cur x) (List.insertionSort (· ≤ ·) u2) with
    | none => simp only [nnLoop, hsort, hnxt]
    | some nxt =>
      simp only [nnLoop, hsort, hnxt]
      rw [ih nxt (u1.erase nxt) (u2.erase nxt) (hp.erase nxt)]

/-- `nn_tsp` (initial-situation variant) is a function of the unvisited
*set*: its result does not depend on the set's enumeration order. -/
theorem nn_tsp_order_irrel (D : Nat → Nat → α) (start : Nat)
    (u1 u2 : List Nat) (roundtrip : Bool) (hp : u1.Perm u2) :
    nn_tsp D start u1 roundtrip = nn_tsp D start u2 roundtrip := by
  unfold nn_tsp
  rw [hp.length_eq, nnLoop_order_irrel D u2.length start u1 u2 hp]

/-! ### Cheapest-insertion lemmas -/

theorem ciPairs_mem {tour unv : List Nat} {x i : Nat}
    (h : (x, i) ∈ ciPairs tour unv) : x ∈ unv ∧ i < tour.length - 1 := by
  unfold ciPairs at h
  rw [List.mem_flatMap] at h
  obtain ⟨y, hy, hmem⟩ := h
  rw [List.mem_map] at hmem
  obtain ⟨j, hj, hji⟩ := hmem
  obtain ⟨rfl, rfl⟩ := Prod.mk.injEq .. ▸ hji
  exact ⟨hy, List.mem_range.mp hj⟩

theorem ciPairs_ne_nil {tour unv : List Nat} (hu : unv ≠ [])
    (ht : 2 ≤ tour.length) : ciPairs tour unv ≠ [] := by
  obtain ⟨x, xs, rfl⟩ := List.exists_cons_of_ne_nil hu
  have h0 : (x, 0) ∈ ciPairs tour (x :: xs) := by
    unfold ciPairs
    rw [List.mem_flatMap]
    refine ⟨x, List.mem_cons_self x xs, ?_⟩
    rw [List.mem_map]
    exact ⟨0, List.mem_range.mpr (by omega), rfl⟩
  exact List.ne_nil_of_mem h0

/-- Main invariant of the cheapest-insertion loop: run with fuel equal to
the number of unvisited nodes, it returns a tour that is a permutation of
the initial tour plus all unvisited nodes and that keeps the initial
tour's first and last elements. -/
theorem ciLoop_spec (D : Nat → Nat → α) :
    ∀ (fuel : Nat) (tour unv : List Nat), unv.length = fuel →
      2 ≤ tour.length →
      (ciLoop D fuel tour unv).Perm (tour ++ unv) ∧
      (ciLoop D fuel tour unv).head? = tour.head? ∧
      (ciLoop D fuel tour unv).getLast? = tour.getLast? := by
  intro fuel
  induction fuel with
  | zero =>
    intro tour unv hl _
    rw [List.length_eq_zero] at hl
    subst hl
    simp [ciLoop]
  | succ n ih =>
    intro tour unv hl ht
    have hu : unv ≠ [] := by
      intro h; rw [h] at hl; simp at hl
    obtain ⟨⟨x, i⟩, hmin⟩ :=
      argminFirst_isSome (ciDelta D tour) (ciPairs_ne_nil hu ht)
    obtain ⟨hx, hi⟩ := ciPairs_mem (argminFirst_mem hmin)
    have hi1 : i + 1 ≤ tour.length := by omega
    have hi2 : i + 1 < tour.length := by omega
    have hlen : (unv.erase x).length = n := by
      rw [List.length_erase_of_mem hx, hl]
      rfl
    have hlen2 : 2 ≤ (tour.insertIdx (i + 1) x).length := by
      rw [List.length_insertIdx (i + 1) tour hi1]
      omega
    obtain ⟨ihp, ihh, ihl⟩ := ih (tour.insertIdx (i + 1) x) (unv.erase x) hlen hlen2
    simp only [ciLoop, hmin]
    refine ⟨?_, ?_, ?_⟩
    · refine ihp.trans ?_
      have s1 : ((tour.insertIdx (i + 1) x) ++ (unv.erase x)).Perm
          ((x :: tour) ++ (unv.erase x)) :=
        (insertIdx_perm x (i + 1) tour hi1).append_right (unv.erase x)
      refine s1.trans ?_
      have s2 : (x :: (tour ++ unv.erase x)).Perm (tour ++ (x :: unv.erase x)) :=
        List.perm_middle.symm
      refine s2.trans ?_
      exact List.Perm.append_left tour (List.perm_cons_erase hx).symm
    · rw [ihh]
      exact insertIdx_head? x (i + 1) tour (by omega)
    · rw [ihl]
      exact insertIdx_getLast? x (i + 1) tour hi2

/-! ### Best-break lemmas -/

theorem bestBreak_lt (f : Nat → α) (n : Nat) (hn : 0 < n) : bestBreak f n < n := by
  have hne : List.range n ≠ [] := by
    simp [List.range_eq_nil]
    omega
  obtain ⟨y, hy⟩ := argminFirst_isSome f hne
  unfold bestBreak
  rw [hy]
  exact List.mem_range.mp (argminFirst_mem hy)

theorem bestBreak_min (f : Nat → α) (n : Nat) (hn : 0 < n) :
    ∀ j < n, f (bestBreak f n) ≤ f j := by
  intro j hj
  have hne : List.range n ≠ [] := by
    simp [List.range_eq_nil]
    omega
  obtain ⟨y, hy⟩ := argminFirst_isSome f hne
  unfold bestBreak
  rw [hy]
  exact argminFirst_le hy j (List.mem_range.mpr hj)

/-- Unfolding equation for `openCheapest`. -/
theorem openCheapest_eq (D : Nat → Nat → α) (tour : List Nat) :
    openCheapest D tour =
      tour.dropLast.drop
        (bestBreak (fun j => D (tour.getD j 0) (tour.getD (j + 1) 0))
          (tour.length - 1) + 1) ++
      tour.dropLast.take
        (bestBreak (fun j => D (tour.getD j 0) (tour.getD (j + 1) 0))
          (tour.length - 1) + 1) := rfl

theorem drop_append_take_perm {β : Type} (l : List β) (k : Nat) :
    (l.drop k ++ l.take k).Perm l := by
  have h : (l.drop k ++ l.take k).Perm (l.take k ++ l.drop k) :=
    List.perm_append_comm
  rw [List.take_append_drop] at h
  exact h

/-- The `others` list of `cheapest_insertion_tsp` is exactly the tail when
the start node does not reappear. -/
theorem cons_filter_ne (s : Nat) (rest : List Nat) (hs : s ∉ rest) :
    (s :: rest).filter (fun n => n ≠ s) = rest := by
  have h1 : (s :: rest).filter (fun n => n ≠ s) = rest.filter (fun n => n ≠ s) := by
    simp
  rw [h1]
  refine List.filter_eq_self.mpr ?_
  intro a ha
  simp only [ne_eq, decide_not, Bool.not_eq_eq_eq_not, Bool.not_true,
    decide_eq_false_iff_not]
  intro h
  exact hs (h ▸ ha)

/-- Initialisation facts of `cheapest_insertion_tsp`: the seed is the start
node together with the node nearest to it. -/
theorem ciInit_spec (D : Nat → Nat → α) (s : Nat) (rest : List Nat)
    (hne : rest ≠ []) (hs : s ∉ rest) :
    ∃ second, ciInit D (s :: rest) = some (s, second) ∧
      ciStartTour D (s :: rest) = some [s, second, s] ∧
      second ∈ rest ∧ ∀ y ∈ rest, D s second ≤ D s y := by
  have hfil : (s :: rest).filter (fun n => n ≠ s) = rest :=
    cons_filter_ne s rest hs
  have hfne : (s :: rest).filter (fun n => n ≠ s) ≠ [] := by
    rw [hfil]; exact hne
  obtain ⟨second, hsec⟩ := argminFirst_isSome (fun n => D s n) hfne
  have hinit : ciInit D (s :: rest) = some (s, second) := by
    simp only [ciInit, hsec]
    rfl
  refine ⟨second, hinit, ?_, ?_, ?_⟩
  · simp only [ciStartTour, hinit]
    rfl
  · have := argminFirst_mem hsec
    rwa [hfil] at this
  · intro y hy
    exact argminFirst_le hsec y (by rw [hfil]; exact hy)

/-- Full run of `cheapest_insertion_tsp` on a node list with distinct
entries: the closed tour returned for `roundtrip=True`, its permutation,
first/last and length facts, and the open-path result for
`roundtrip=False`. -/
theorem ci_run_spec (D : Nat → Nat → α) (s : Nat) (rest ord : List Nat)
    (hne : rest ≠ []) (hs : s ∉ rest) (hci : ord.Perm (s :: rest)) :
    ∃ closed,
      cheapest_insertion D (s :: rest) ord true =
        some (closed, path_length D closed) ∧
      cheapest_insertion D (s :: rest) ord false =
        some (openCheapest D closed, path_length D (openCheapest D closed)) ∧
      closed.dropLast.Perm (s :: rest) ∧
      closed.head? = some s ∧ closed.getLast? = some s ∧
      closed.length = rest.length + 2 := by
  obtain ⟨second, hinit, -, hsecmem, -⟩ := ciInit_spec D s rest hne hs
  have h2 : ¬((s :: rest).length < 2) := by
    simp only [List.length_cons]
    have := List.length_pos.mpr hne
    omega
  refine ⟨ciLoop D ((ord.erase s).erase second).length [s, second, s]
    ((ord.erase s).erase second), ?_, ?_, ?_⟩
  · unfold cheapest_insertion
    rw [if_neg h2, hinit]
    rfl
  · unfold cheapest_insertion
    rw [if_neg h2, hinit]
    rfl
  · -- structural facts about the closed tour
    obtain ⟨hperm, hhead, hlast⟩ := ciLoop_spec D
      ((ord.erase s).erase second).length [s, second, s]
      ((ord.erase s).erase second) rfl (by simp)
    have hu1 : (ord.erase s).Perm rest := by
      have h := hci.erase s
      rwa [List.erase_cons_head] at h
    have hu2 : ((ord.erase s).erase second).Perm (rest.erase second) :=
      hu1.erase second
    have hlast' : (ciLoop D ((ord.erase s).erase second).length [s, second, s]
        ((ord.erase s).erase second)).getLast? = some s := by
      rw [hlast]; rfl
    have hhead' : (ciLoop D ((ord.erase s).erase second).length [s, second, s]
        ((ord.erase s).erase second)).head? = some s := by
      rw [hhead]; rfl
    have hdecomp : (ciLoop D ((ord.erase s).erase second).length [s, second, s]
          ((ord.erase s).erase second)).dropLast ++ [s] =
        ciLoop D ((ord.erase s).erase second).length [s, second, s]
          ((ord.erase s).erase second) :=
      List.dropLast_append_getLast? s (Option.mem_def.mpr hlast')
    have h1 := hperm
    rw [← hdecomp] at h1
    have hmid : (s :: (ciLoop D ((ord.erase s).erase second).length [s, second, s]
          ((ord.erase s).erase second)).dropLast).Perm
        (s :: second :: s :: (ord.erase s).erase second) :=
      (List.perm_append_singleton s _).symm.trans h1
    have h3 := hmid.cons_inv
    have h4 := h3.trans (List.Perm.swap s second ((ord.erase s).erase second))
    have h5 : (second :: (ord.erase s).erase second).Perm rest :=
      (hu2.cons second).trans (List.perm_cons_erase hsecmem).symm
    have hdropPerm : (ciLoop D ((ord.erase s).erase second).length [s, second, s]
          ((ord.erase s).erase second)).dropLast.Perm (s :: rest) :=
      h4.trans (h5.cons s)
    refine ⟨hdropPerm, hhead', hlast', ?_⟩
    have hlen := congrArg List.length hdecomp
    rw [List.length_append, hdropPerm.length_eq] at hlen
    simp only [List.length_cons, List.length_nil] at hlen
    omega

/-! ## Claim C4 -/

/-- C4: on any node list of size at least 2 with distinct entries, both
heuristics return a tour that visits every input node exactly once (a
permutation of the node list), of length `|nodes|` when open and
`|nodes| + 1` when closed, the closed tour starting and ending at the
start node. -/
theorem C4_tour_invariants (D : Nat → Nat → α) (s : Nat)
    (rest nnOrd ciOrd : List Nat) (hne : rest ≠ []) (_hnd : rest.Nodup)
    (hs : s ∉ rest) (hnn : nnOrd.Perm rest) (hci : ciOrd.Perm (s :: rest)) :
    ((nn_tsp D s nnOrd false).1.Perm (s :: rest) ∧
      (nn_tsp D s nnOrd false).1.length = (s :: rest).length) ∧
    ((nn_tsp D s nnOrd true).1.dropLast.Perm (s :: rest) ∧
      (nn_tsp D s nnOrd true).1.length = (s :: rest).length + 1 ∧
      (nn_tsp D s nnOrd true).1.head? = some s ∧
      (nn_tsp D s nnOrd true).1.getLast? = some s) ∧
    (∃ t c, cheapest_insertion D (s :: rest) ciOrd true = some (t, c) ∧
      t.dropLast.Perm (s :: rest) ∧ t.length = (s :: rest).length + 1 ∧
      t.head? = some s ∧ t.getLast? = some s) ∧
    (∃ p c, cheapest_insertion D (s :: rest) ciOrd false = some (p, c) ∧
      p.Perm (s :: rest) ∧ p.length = (s :: rest).length) := by
  have hv : (nnLoop D nnOrd.length s nnOrd).1.Perm nnOrd :=
    nnLoop_perm D nnOrd.length s nnOrd rfl
  have hfalse1 : (nn_tsp D s nnOrd false).1 =
      s :: (nnLoop D nnOrd.length s nnOrd).1 := rfl
  have htrue1 : (nn_tsp D s nnOrd true).1 =
      s :: ((nnLoop D nnOrd.length s nnOrd).1 ++ [s]) := rfl
  have hvr : (nnLoop D nnOrd.length s nnOrd).1.Perm rest := hv.trans hnn
  refine ⟨⟨?_, ?_⟩, ⟨?_, ?_, ?_, ?_⟩, ?_, ?_⟩
  · rw [hfalse1]; exact hvr.cons s
  · rw [hfalse1]
    simp only [List.length_cons, hvr.length_eq]
  · rw [htrue1, show s :: ((nnLoop D nnOrd.length s nnOrd).1 ++ [s]) =
      (s :: (nnLoop D nnOrd.length s nnOrd).1) ++ [s] from rfl,
      List.dropLast_concat]
    exact hvr.cons s
  · rw [htrue1]
    simp only [List.length_cons, List.length_append, List.length_nil,
      hvr.length_eq]
  · rw [htrue1]; rfl
  · rw [htrue1, getLast?_cons_of_ne_nil s (by simp), List.getLast?_concat]
  · obtain ⟨closed, htr, -, hdp, hh, hlast, hlen⟩ :=
      ci_run_spec D s rest ciOrd hne hs hci
    refine ⟨closed, path_length D closed, htr, hdp, ?_, hh, hlast⟩
    rw [hlen]
    simp only [List.length_cons]
  · obtain ⟨closed, -, hfa, hdp, -, -, -⟩ :=
      ci_run_spec D s rest ciOrd hne hs hci
    refine ⟨openCheapest D closed, path_length D (openCheapest D closed),
      hfa, ?_, ?_⟩
    · rw [openCheapest_eq]
      exact (drop_append_take_perm closed.dropLast _).trans hdp
    · rw [openCheapest_eq]
      exact ((drop_append_take_perm closed.dropLast _).trans hdp).length_eq

/-- Witness for C4: the theorem applied to the 4-node example matrix with
nodes `[0, 1, 2, 3]`. -/
theorem C4_tour_invariants_witness :
    ((nn_tsp exD4 0 [1, 2, 3] false).1.Perm [0, 1, 2, 3] ∧
      (nn_tsp exD4 0 [1, 2, 3] false).1.length = ([0, 1, 2, 3] : List Nat).length) ∧
    ((nn_tsp exD4 0 [1, 2, 3] true).1.dropLast.Perm [0, 1, 2, 3] ∧
      (nn_tsp exD4 0 [1, 2, 3] true).1.length = ([0, 1, 2, 3] : List Nat).length + 1 ∧
      (nn_tsp exD4 0 [1, 2, 3] true).1.head? = some 0 ∧
      (nn_tsp exD4 0 [1, 2, 3] true).1.getLast? = some 0) ∧
    (∃ t c, cheapest_insertion exD4 [0, 1, 2, 3] [0, 1, 2, 3] true = some (t, c) ∧
      t.dropLast.Perm [0, 1, 2, 3] ∧ t.length = ([0, 1, 2, 3] : List Nat).length + 1 ∧
      t.head? = some 0 ∧ t.getLast? = some 0) ∧
    (∃ p c, cheapest_insertion exD4 [0, 1, 2, 3] [0, 1, 2, 3] false = some (p, c) ∧
      p.Perm [0, 1, 2, 3] ∧ p.length = ([0, 1, 2, 3] : List Nat).length) :=
  C4_tour_invariants exD4 0 [1, 2, 3] [1, 2, 3] [0, 1, 2, 3]
    (by decide) (by decide) (by decide) (by decide) (by decide)

/-! ## Claim C5 -/

/-- C5 counterexample: `si_tsp` (a cheapest-insertion builder cited by the
claim) does not open its cycle at the cheapest edge.  On `cexD` the closed
cycle is `[0, 2, 1, 0]`, whose cheapest edge is `(0, 2)` with cost 1, so
the claimed rotation would give `[2, 1, 0]`; `si_tsp` instead pops the
final element and returns `[0, 2, 1]`. -/
theorem C5_counterexample :
    si_tsp cexD [0, 1, 2] true = some ([0, 2, 1, 0], 10) ∧
    si_tsp cexD [0, 1, 2] false = some ([0, 2, 1], 6) ∧
    openCheapest cexD [0, 2, 1, 0] = [2, 1, 0] ∧
    ([0, 2, 1] : List Nat) ≠ [2, 1, 0] := by
  decide

/-- C5 (amended): the standalone cheapest-insertion builder
(`cheapest_insertion_tsp`) does satisfy the claim — asked for an open path
it returns the closed cycle with the globally cheapest edge `(i, i+1)`
removed, rotated so the path starts right after that edge; the eco
successive-insertion variant (`si_tsp`) instead removes the final return
edge unconditionally. -/
theorem C5_open_at_cheapest_edge (D : Nat → Nat → α) (s : Nat)
    (rest ciOrd : List Nat) (hne : rest ≠ []) (hs : s ∉ rest)
    (hci : ciOrd.Perm (s :: rest)) :
    (∃ t c i, cheapest_insertion D (s :: rest) ciOrd true = some (t, c) ∧
      i + 1 < t.length ∧
      (∀ j, j + 1 < t.length →
        D (t.getD i 0) (t.getD (i + 1) 0) ≤ D (t.getD j 0) (t.getD (j + 1) 0)) ∧
      cheapest_insertion D (s :: rest) ciOrd false =
        some (t.dropLast.drop (i + 1) ++ t.dropLast.take (i + 1),
          path_length D (t.dropLast.drop (i + 1) ++ t.dropLast.take (i + 1)))) ∧
    (∀ nodes closed c, si_tsp D nodes true = some (closed, c) →
      si_tsp D nodes false = some (closed.dropLast, path_length D closed.dropLast)) := by
  constructor
  · obtain ⟨closed, htr, hfa, -, -, -, hlen⟩ :=
      ci_run_spec D s rest ciOrd hne hs hci
    refine ⟨closed, path_length D closed,
      bestBreak (fun j => D (closed.getD j 0) (closed.getD (j + 1) 0))
        (closed.length - 1), htr, ?_, ?_, ?_⟩
    · have := bestBreak_lt
        (fun j => D (closed.getD j 0) (closed.getD (j + 1) 0))
        (closed.length - 1) (by omega)
      omega
    · intro j hj
      exact bestBreak_min
        (fun j => D (closed.getD j 0) (closed.getD (j + 1) 0))
        (closed.length - 1) (by omega) j (by omega)
    · rw [hfa, openCheapest_eq]
  · intro nodes closed c htr
    cases nodes with
    | nil => simp [si_tsp, siStartTour] at htr
    | cons n0 t =>
      cases t with
      | nil => simp [si_tsp, siStartTour] at htr
      | cons n1 r =>
        have heq : si_tsp D (n0 :: n1 :: r) true =
            some (((n0 :: n1 :: r).drop 2).foldl (siInsert D) [n0, n1, n0],
              path_length D
                (((n0 :: n1 :: r).drop 2).foldl (siInsert D) [n0, n1, n0])) := rfl
        rw [heq] at htr
        injection htr with htr
        have h1 : ((n0 :: n1 :: r).drop 2).foldl (siInsert D) [n0, n1, n0] =
            closed := congrArg Prod.fst htr
        rw [show si_tsp D (n0 :: n1 :: r) false =
          some ((((n0 :: n1 :: r).drop 2).foldl (siInsert D) [n0, n1, n0]).dropLast,
            path_length D
              ((((n0 :: n1 :: r).drop 2).foldl (siInsert D) [n0, n1, n0]).dropLast))
          from rfl, h1]

/-- Witness for C5 (amended): the theorem applied to the 4-node example
matrix with nodes `[0, 1, 2, 3]`. -/
theorem C5_open_at_cheapest_edge_witness :
    (∃ t c i, cheapest_insertion exD4 [0, 1, 2, 3] [0, 1, 2, 3] true = some (t, c) ∧
      i + 1 < t.length ∧
      (∀ j, j + 1 < t.length →
        exD4 (t.getD i 0) (t.getD (i + 1) 0) ≤
          exD4 (t.getD j 0) (t.getD (j + 1) 0)) ∧
      cheapest_insertion exD4 [0, 1, 2, 3] [0, 1, 2, 3] false =
        some (t.dropLast.drop (i + 1) ++ t.dropLast.take (i + 1),
          path_length exD4 (t.dropLast.drop (i + 1) ++ t.dropLast.take (i + 1)))) ∧
    (∀ nodes closed c, si_tsp exD4 nodes true = some (closed, c) →
      si_tsp exD4 nodes false =
        some (closed.dropLast, path_length exD4 closed.dropLast)) :=
  C5_open_at_cheapest_edge exD4 0 [1, 2, 3] [0, 1, 2, 3]
    (by decide) (by decide) (by decide)

/-! ## Claim C6 -/

/-- C6 counterexample: `si_tsp` (a cheapest-insertion builder cited by the
claim) seeds its 2-cycle with `nodes[1]` even when another node is strictly
nearer to the start: on `cexD`, `D 0 2 = 1 < 4 = D 0 1`, yet the initial
tour is `[0, 1, 0]`, not `[0, 2, 0]` (which `cheapest_insertion_tsp`
correctly produces). -/
theorem C6_counterexample :
    siStartTour [0, 1, 2] = some [0, 1, 0] ∧ cexD 0 2 < cexD 0 1 ∧
    ciStartTour cexD [0, 1, 2] = some [0, 2, 0] := by
  decide

/-- C6 (amended): the standalone cheapest-insertion builder
(`cheapest_insertion_tsp`) initialises its tour as `[start, second, start]`
with `second` a node of minimal cost from `start` among the remaining
nodes; the eco successive-insertion variant (`si_tsp`) initialises with
`second = nodes[1]` unconditionally. -/
theorem C6_initial_two_cycle (D : Nat → Nat → α) (s : Nat) (rest : List Nat)
    (hne : rest ≠ []) (hs : s ∉ rest) :
    (∃ second, ciStartTour D (s :: rest) = some [s, second, s] ∧
      second ∈ rest ∧ ∀ y ∈ rest, D s second ≤ D s y) ∧
    (∀ (n0 n1 : Nat) (r : List Nat), siStartTour (n0 :: n1 :: r) = some [n0, n1, n0]) := by
  obtain ⟨second, -, hst, hmem, hmin⟩ := ciInit_spec D s rest hne hs
  exact ⟨⟨second, hst, hmem, hmin⟩, fun n0 n1 r => rfl⟩

/-- Witness for C6 (amended): applied to `cexD` with nodes `[0, 1, 2]`. -/
theorem C6_initial_two_cycle_witness :
    (∃ second, ciStartTour cexD [0, 1, 2] = some [0, second, 0] ∧
      second ∈ [1, 2] ∧ ∀ y ∈ [1, 2], cexD 0 second ≤ cexD 0 y) ∧
    (∀ (n0 n1 : Nat) (r : List Nat), siStartTour (n0 :: n1 :: r) = some [n0, n1, n0]) :=
  C6_initial_two_cycle cexD 0 [1, 2] (by decide) (by decide)

/-! ## Claim C7 -/

/-- C7: on the 4-node symmetric example matrix with start node 0 and
`roundtrip=True`, the nearest-neighbour heuristic returns the cycle
`0 → 1 → 3 → 2 → 0` with total 80, whatever enumeration order the
unvisited set `{1, 2, 3}` happens to have. -/
theorem C7_example_scenario_1 (o : List Nat) (ho : o.Perm [1, 2, 3]) :
    nn_tsp exD4 0 o true = ([0, 1, 3, 2, 0], 80) := by
  rw [nn_tsp_order_irrel exD4 0 o [1, 2, 3] true ho]
  decide

/-- Witness for C7: the canonical enumeration `[1, 2, 3]`. -/
theorem C7_example_scenario_1_witness :
    nn_tsp exD4 0 [1, 2, 3] true = ([0, 1, 3, 2, 0], 80) :=
  C7_example_scenario_1 [1, 2, 3] (List.Perm.refl _)

/-! ## Claim C8 -/

/-- C8 counterexample: the eco nearest-neighbour iterates the raw
`set(nodes)` when taking `idxmin`, so on a distance tie two runs with
different set-iteration orders return different tours for the same node
list, roundtrip flag and cost matrix: on `tieD` (`D 0 1 = D 0 2 = 5`),
iteration order `[1, 2]` yields the tour `[0, 1, 2]` while `[2, 1]`
yields `[0, 2, 1]`. -/
theorem C8_counterexample :
    ([1, 2] : List Nat).Perm [2, 1] ∧
    nn_tsp_eco tieD 0 [1, 2] false = ([0, 1, 2], 6) ∧
    nn_tsp_eco tieD 0 [2, 1] false = ([0, 2, 1], 6) ∧
    nn_tsp_eco tieD 0 [1, 2] false ≠ nn_tsp_eco tieD 0 [2, 1] false := by
  refine ⟨by decide, by decide, by decide, by decide⟩

/-- C8 (amended): each heuristic is a deterministic function of its inputs
*and* the iteration order of its internal unvisited set; the
initial-situation nearest-neighbour is additionally independent of that
order, because it sorts the candidate set before selecting (the eco
nearest-neighbour and the set-driven cheapest-insertion are not, on
ties — see the counterexample). -/
theorem C8_idempotent_runs (D : Nat → Nat → α) (start : Nat)
    (u1 u2 : List Nat) (roundtrip : Bool) (hp : u1.Perm u2) :
    nn_tsp D start u1 roundtrip = nn_tsp D start u2 roundtrip :=
  nn_tsp_order_irrel D start u1 u2 roundtrip hp

/-- Witness for C8 (amended): two enumeration orders of `{1, 2, 3}` give
the same nearest-neighbour result on the example matrix. -/
theorem C8_idempotent_runs_witness :
    nn_tsp exD4 0 [2, 1, 3] true = nn_tsp exD4 0 [1, 2, 3] true :=
  C8_idempotent_runs exD4 0 [2, 1, 3] [1, 2, 3] true (by decide)

end TSPF1
